import Mathlib

/-
Shallow embedding of the MTM (mark-to-market) valuation engine found in
src/mtm_core of the repository, together with theorems settling the frozen
claims about it.

Modelling conventions used throughout (stated once here, referenced below):
* pandas DataFrames become lists of structures; one structure field per column.
* Python floats become exact rationals (ℚ); the float NaN used by the code as a
  missing-value marker becomes `Option ℚ` with `none` for NaN.  Binary
  floating-point rounding is idealised away.
* `datetime.date` values become `PDate` (year, month, day as naturals) with
  Python's lexicographic comparison; raw date cells are modelled as already
  converted by `to_date` (utils.py), i.e. `Option PDate` with `none` for
  NaN/unparseable values.
* The free-form dateutil parser used by `normalize_tenor_to_yyyymm` (utils.py)
  is an oracle parameter `parse : String → Option (Nat × Nat)` returning the
  (year, month) of the parsed date, `none` on parse failure.
* Fallible Python code (raised exceptions) returns `Except String _`.
* Character-level predicates (`str.isdigit`, `str.strip`, `str.upper`,
  `str.lower`) are modelled on their ASCII behaviour; Python underscore
  separators in numeric literals are not modelled.
-/

namespace MTM

/-- Calendar date (year, month, day), embedding Python `datetime.date` values. -/
structure PDate where
  year : Nat
  month : Nat
  day : Nat
deriving DecidableEq

/-- Python date comparison `a <= b` (lexicographic on year, month, day). -/
def PDate.ble (a b : PDate) : Bool :=
  decide (a.year < b.year) || (decide (a.year = b.year) &&
    (decide (a.month < b.month) || (decide (a.month = b.month) && decide (a.day ≤ b.day))))

/-- Python date comparison `a < b` (lexicographic on year, month, day). -/
def PDate.blt (a b : PDate) : Bool :=
  decide (a.year < b.year) || (decide (a.year = b.year) &&
    (decide (a.month < b.month) || (decide (a.month = b.month) && decide (a.day < b.day))))

/-- Whitespace characters removed by Python `str.strip` (ASCII subset). -/
def pyWs (c : Char) : Bool :=
  c == ' ' || c == '\t' || c == '\n' || c == '\r'

/-- Python `str.strip`: drop leading and trailing whitespace. -/
def pstrip (s : String) : String :=
  ⟨((s.toList.dropWhile pyWs).reverse.dropWhile pyWs).reverse⟩

/-- Python `str.lower` (ASCII model, character-wise). -/
def pyLower (s : String) : String := ⟨s.toList.map Char.toLower⟩

/-- Python `str.upper` (ASCII model, character-wise). -/
def pyUpper (s : String) : String := ⟨s.toList.map Char.toUpper⟩

/-- Numeric value of a list of decimal digit characters. -/
def digitsToNat (l : List Char) : Nat :=
  l.foldl (fun a c => a * 10 + (c.toNat - 48)) 0

/-- Accept a nonempty all-digit character list, returning its value. -/
def parseDigits (l : List Char) : Option Nat :=
  if !l.isEmpty && l.all Char.isDigit then some (digitsToNat l) else none

/-- Python `int(s)` on the (sign-optional, non-negative decimal) strings this
code feeds it: surrounding whitespace and one leading plus sign tolerated. -/
def pyNat (s : String) : Option Nat :=
  match (pstrip s).toList with
  | '+' :: rest => parseDigits rest
  | l => parseDigits l

/-- Python `float(s)` on sign/digits/dot strings (the only shape the code can
feed it after filtering): optional sign, then digits with at most one dot and
at least one digit; exponents, inf/nan words and underscores cannot occur. -/
def pyFloatAux (l : List Char) : Option ℚ :=
  let body := if l.head? = some '-' ∨ l.head? = some '+' then l.tail else l
  let val : Option ℚ :=
    if body.count '.' = 0 then
      match parseDigits body with
      | some n => some ((n : ℚ))
      | none => none
    else if body.count '.' = 1 then
      let ip := body.takeWhile (fun c => c != '.')
      let fp := (body.dropWhile (fun c => c != '.')).drop 1
      if ip.all Char.isDigit && fp.all Char.isDigit && (!ip.isEmpty || !fp.isEmpty) then
        some ((digitsToNat ip : ℚ) + (digitsToNat fp : ℚ) / (10 : ℚ) ^ fp.length)
      else none
    else none
  val.map (fun v => if l.head? = some '-' then -v else v)

/-- Python `float(s)` (strips surrounding whitespace first). -/
def pyFloat (s : String) : Option ℚ := pyFloatAux (pstrip s).toList

/-- The character filter of `compute_fe_ratio` (adjustments.py line 35):
keep digits, dot and minus. -/
def filterNumeric (s : String) : String :=
  ⟨s.toList.filter (fun c => c.isDigit || c == '.' || c == '-')⟩

/-- `compute_fe_ratio` (adjustments.py lines 18-42).  The input cell is
`Option String`: `none` for Python None/NaN, otherwise the cell's text. -/
def compute_fe_ratio (typical_fe_value : Option String) : ℚ :=
  match typical_fe_value with
  | none => 1
  | some v =>
    let text := pstrip v
    if text = "" ∨ pyLower text = "noadj" then 1
    else
      match pyFloat (filterNumeric text) with
      | some val => val / 62
      | none => 1

/-- `add_note` (utils.py lines 141-148). -/
def add_note (existing new_note : String) : String :=
  if existing = "" then new_note
  else if new_note = "" then existing
  else existing ++ " | " ++ new_note

/-- Decimal digit character for a value below ten. -/
def digitChar (n : Nat) : Char := Char.ofNat (48 + n)

/-- Python format `%02d`. -/
def pad2 (n : Nat) : String :=
  if n < 100 then ⟨[digitChar (n / 10), digitChar (n % 10)]⟩ else toString n

/-- Python format `%04d`. -/
def pad4 (n : Nat) : String :=
  if n < 10000 then
    ⟨[digitChar (n / 1000), digitChar (n / 100 % 10), digitChar (n / 10 % 10), digitChar (n % 10)]⟩
  else toString n

/-- Python format `%.2f` on a rational (round half up; the half-even
difference of CPython is not exercised by any claim). -/
def fmt2 (q : ℚ) : String :=
  let n : Int := (q * 100 + 1 / 2).floor
  (if n < 0 then "-" else "") ++ toString (n.natAbs / 100) ++ "." ++ pad2 (n.natAbs % 100)

/-- `convert_wmt_to_dmt` (adjustments.py lines 45-66). -/
def convert_wmt_to_dmt (quantity moisture : Option ℚ) (default_moisture : ℚ) :
    Option ℚ × String :=
  match quantity with
  | none => (none, "Missing quantity")
  | some q =>
    match moisture with
    | none =>
      (some (q * (1 - default_moisture)),
        add_note "" ("Moisture missing; defaulted to " ++ fmt2 default_moisture))
    | some m => (some (q * (1 - m)), "")

/-- The canonical year-month output format of the tenor normalizer:
Python `f-string` with `%04d`/`%02d` fields (utils.py line 119). -/
def fmtYM (y m : Nat) : String := pad4 y ++ "-" ++ pad2 m

/-- `normalize_tenor_to_yyyymm` (utils.py lines 97-121).  `parse` is the
dateutil oracle (see the header comment); the input is `none` for None/NaN. -/
def normalize_tenor_to_yyyymm (parse : String → Option (Nat × Nat))
    (value : Option String) : Option String :=
  match value with
  | none => none
  | some v =>
    if v = "" then none
    else if (pstrip v).length = 7 ∧ (pstrip v).toList.getD 4 ' ' = '-' then some (pstrip v)
    else
      match parse v with
      | some ym => some (fmtYM ym.1 ym.2)
      | none => none

/-- Specification-side predicate (from the claim's words, not the source):
a canonical `YYYY-MM` string is four digits, a hyphen, and a two-digit month
between 01 and 12. -/
def isCanonicalYYYYMM (s : String) : Bool :=
  match s.toList with
  | [a, b, c, d, h, e, f] =>
    a.isDigit && b.isDigit && c.isDigit && d.isDigit && h == '-' && e.isDigit && f.isDigit &&
      (decide (1 ≤ 10 * (e.toNat - 48) + (f.toNat - 48)) &&
       decide (10 * (e.toNat - 48) + (f.toNat - 48) ≤ 12))
  | _ => false

/-- `Config` (utils.py lines 41-76). -/
structure Config where
  duplicate_price_method : String
  invalid_unit_policy : String
  default_moisture : ℚ
  raise_on_negative_discount : Bool
deriving DecidableEq

/-- The default configuration: method "mean", policy "skip", moisture 0,
no raise on negative discounts. -/
def defaultConfig : Config := ⟨"mean", "skip", 0, false⟩

/-- One contracts-table row after the boundary loader's renaming, with the
numeric columns already coerced by `safe_to_numeric` (utils.py lines 124-138):
an unparseable numeric cell is `none` (NaN).  The `notes` column defaults to
the empty string as in prepare_contracts (adjustments.py line 103). -/
structure Contract where
  contract_id : String
  base_index : String
  tenor : Option String
  quantity : Option ℚ
  unit : String
  moisture : Option ℚ
  typical_fe : Option String
  cost : Option ℚ
  discount : Option ℚ
  notes : String
deriving DecidableEq

/-- A prepared contract row: the input columns plus `fe_ratio`, `dmt_qty`
and the accumulated `notes` (adjustments.py lines 69-160). -/
structure Prepared where
  contract_id : String
  base_index : String
  tenor : Option String
  quantity : Option ℚ
  unit : String
  moisture : Option ℚ
  typical_fe : Option String
  cost : Option ℚ
  discount : Option ℚ
  fe_ratio : ℚ
  dmt_qty : Option ℚ
  notes : String
deriving DecidableEq

/-- The per-row body of the unit-dispatch loop of `prepare_contracts`
(adjustments.py lines 121-141), together with the row's Fe ratio computation
(line 112).  Raising `ValueError` becomes `.error`. -/
def prepare_contract_row (config : Config) (c : Contract) : Except String Prepared :=
  let fe := compute_fe_ratio c.typical_fe
  let unit := pyUpper c.unit
  if unit = "DMT" then
    .ok ⟨c.contract_id, c.base_index, c.tenor, c.quantity, c.unit, c.moisture,
         c.typical_fe, c.cost, c.discount, fe, c.quantity, c.notes⟩
  else if unit = "WMT" then
    let conv := convert_wmt_to_dmt c.quantity c.moisture config.default_moisture
    .ok ⟨c.contract_id, c.base_index, c.tenor, c.quantity, c.unit, c.moisture,
         c.typical_fe, c.cost, c.discount, fe, conv.1, add_note c.notes conv.2⟩
  else
    let message := "Unsupported unit '" ++ unit ++ "' for contract " ++ c.contract_id
    if config.invalid_unit_policy = "fail" then .error message
    else
      .ok ⟨c.contract_id, c.base_index, c.tenor, c.quantity, c.unit, c.moisture,
           c.typical_fe, c.cost, c.discount, fe, none, add_note c.notes message⟩

/-- Error-propagating map over a list (Python loop that may raise). -/
def mapE {α β : Type} (f : α → Except String β) : List α → Except String (List β)
  | [] => .ok []
  | a :: as =>
    match f a with
    | .error e => .error e
    | .ok b =>
      match mapE f as with
      | .error e => .error e
      | .ok bs => .ok (b :: bs)

/-- The discount mask of `prepare_contracts` (adjustments.py line 148):
discount non-positive or missing. -/
def badDiscount (r : Prepared) : Bool :=
  match r.discount with
  | none => true
  | some d => decide (d ≤ 0)

/-- `prepare_contracts` (adjustments.py lines 69-160): per-row Fe ratio and
unit dispatch, then the vectorised discount validation.  The required-column
check is carried by the `Contract` structure itself. -/
def prepare_contracts (df : List Contract) (config : Config) : Except String (List Prepared) :=
  match mapE (prepare_contract_row config) df with
  | .error e => .error e
  | .ok rows =>
    let n := (rows.filter badDiscount).length
    if n > 0 then
      if config.raise_on_negative_discount then
        .error (toString n ++ " contracts have non-positive or missing discounts")
      else
        .ok (rows.map (fun r =>
          if badDiscount r then
            { r with notes := add_note r.notes "Non-positive or missing discount" }
          else r))
    else .ok rows

/-- One prices-table row: `Index`, optional `Tenor` text, `Date` (as parsed by
`to_date`; `none` for NaN), `Price`.  A prices table lacking the `Tenor`
column corresponds to every row having `Tenor = none`, exactly what
`df["Tenor"] = np.nan` produces (mtm_calculator.py line 30). -/
structure PriceRow where
  Index : String
  Tenor : Option String
  Date : Option PDate
  Price : ℚ
deriving DecidableEq

/-- The `(Index, Tenor, Date)` group key of `preprocess_prices`
(mtm_calculator.py line 32). -/
def priceKey (r : PriceRow) : String × Option String × Option PDate :=
  (r.Index, r.Tenor, r.Date)

/-- A row participates in a pandas groupby on `(Index, Tenor, Date)` only when
no key component is NaN (pandas drops NaN group keys). -/
def validKey (r : PriceRow) : Bool := r.Tenor.isSome && r.Date.isSome

/-- First-occurrence deduplication (pandas `unique`). -/
def dedupFirstAux {α : Type} [DecidableEq α] (seen : List α) : List α → List α
  | [] => []
  | a :: as => if a ∈ seen then dedupFirstAux seen as else a :: dedupFirstAux (a :: seen) as

/-- First-occurrence deduplication (pandas `unique`). -/
def dedupFirst {α : Type} [DecidableEq α] (l : List α) : List α := dedupFirstAux [] l

/-- The keep-last-per-group selection of `preprocess_prices` under "last"
(mtm_calculator.py line 42): a row survives when no later row shares its key. -/
def keepLast : List PriceRow → List PriceRow
  | [] => []
  | r :: rs =>
    if rs.any (fun s => decide (priceKey s = priceKey r)) then keepLast rs
    else r :: keepLast rs

/-- `preprocess_prices` (mtm_calculator.py lines 20-57).  Group order of the
"mean" branch is modelled as first occurrence (pandas sorts group keys; every
claim about this function is insensitive to row order). -/
def preprocess_prices (prices : List PriceRow) (config : Config) :
    Except String (List PriceRow) :=
  if config.duplicate_price_method = "mean" then
    let kept := prices.filter validKey
    let keys := dedupFirst (kept.map priceKey)
    .ok (keys.map (fun k =>
      let grp := kept.filter (fun r => decide (priceKey r = k))
      ⟨k.1, k.2.1, k.2.2, (grp.map PriceRow.Price).sum / (grp.length : ℚ)⟩))
  else if config.duplicate_price_method = "last" then
    .ok (keepLast (prices.filter validKey))
  else .error ("Unknown duplicate_price_method: " ++ config.duplicate_price_method)

/-- `TenorType` (tenor_logic.py line 18). -/
inductive TenorType where
  | past
  | current
  | future
deriving DecidableEq

/-- `TenorContext` (tenor_logic.py lines 21-26). -/
structure TenorContext where
  contract_tenor_norm : String
  tenor_type : TenorType
deriving DecidableEq

/-- Python `str.split` on a single-character separator, on character lists. -/
def splitListOn (sep : Char) : List Char → List (List Char)
  | [] => [[]]
  | c :: cs =>
    if c = sep then [] :: splitListOn sep cs
    else
      match splitListOn sep cs with
      | [] => [[c]]
      | h :: t => (c :: h) :: t

/-- Python `t.split("-")` (tenor_logic.py lines 147-149). -/
def splitOnDash (s : String) : List String :=
  (splitListOn '-' s.toList).map (fun l => ⟨l⟩)

/-- Python tuple comparison `(a1, a2) < (b1, b2)` on year-month pairs. -/
def ymLt (a b : Nat × Nat) : Bool :=
  decide (a.1 < b.1) || (decide (a.1 = b.1) && decide (a.2 < b.2))

/-- Python tuple comparison `(a1, a2) <= (b1, b2)` on year-month pairs. -/
def ymLe (a b : Nat × Nat) : Bool :=
  decide (a.1 < b.1) || (decide (a.1 = b.1) && decide (a.2 ≤ b.2))

/-- `_ym_key` / the `map(int, t.split("-"))` pattern (tenor_logic.py lines 40,
147-149): split a tenor string at hyphens and read both parts as integers;
a wrong part count or a non-numeric part raises, modelled as `.error`. -/
def ymKeyE (t : String) : Except String (Nat × Nat) :=
  match splitOnDash t with
  | [y, m] =>
    match pyNat y, pyNat m with
    | some a, some b => .ok (a, b)
    | _, _ => .error ("invalid literal for int in tenor " ++ t)
  | _ => .error ("cannot unpack tenor " ++ t)

/-- `classify_tenor` (tenor_logic.py lines 29-49). -/
def classify_tenor (parse : String → Option (Nat × Nat)) (contract_tenor : Option String)
    (valuation_date : PDate) : Except String (Option TenorContext) :=
  match normalize_tenor_to_yyyymm parse contract_tenor with
  | none => .ok none
  | some tenor_norm =>
    match ymKeyE tenor_norm with
    | .error e => .error e
    | .ok tym =>
      let v := (valuation_date.year, valuation_date.month)
      let ttype : TenorType :=
        if ymLt tym v then .past else if tym = v then .current else .future
      .ok (some ⟨tenor_norm, ttype⟩)

/-- A price row after `_prepare_prices` (tenor_logic.py lines 52-73):
normalized tenor and resolved price date alongside the original columns. -/
structure PriceRowN where
  Index : String
  tenor_norm : Option String
  price_date : Option PDate
  Price : ℚ
deriving DecidableEq

/-- `_prepare_prices` on one row, Tenor column present (tenor_logic.py
lines 63-66); `to_date` is the identity in this model (header comment). -/
def prepPriceRow (parse : String → Option (Nat × Nat)) (r : PriceRow) : PriceRowN :=
  ⟨r.Index, normalize_tenor_to_yyyymm parse r.Tenor, r.Date, r.Price⟩

/-- Left fold keeping the first element attaining the running maximum:
pandas `max` followed by `.iloc[0]` on the rows attaining it. -/
def pick1 {α : Type} (lt : α → α → Bool) : Option α → List α → Option α
  | acc, [] => acc
  | acc, a :: as =>
    pick1 lt
      (match acc with
       | none => some a
       | some b => if lt b a then some a else some b) as

/-- The `dropna(subset=["price_date"])` pairing: each row with its resolved
date. -/
def validPairs (rows : List PriceRowN) : List (PriceRowN × PDate) :=
  rows.filterMap (fun r => r.price_date.map (fun d => (r, d)))

/-- `_latest_within_month` (tenor_logic.py lines 104-109): among rows with a
resolvable date, the first row attaining the latest date. -/
def latest_within_month (rows : List PriceRowN) : Option PriceRowN :=
  (pick1 (fun p q => PDate.blt p.2 q.2) none (validPairs rows)).map Prod.fst

/-- The "current" branch selection (tenor_logic.py lines 119-125): among rows
with a resolvable date on or before the valuation date, the first row
attaining the latest such date. -/
def latest_on_or_before (rows : List PriceRowN) (vd : PDate) : Option PriceRowN :=
  (pick1 (fun p q => PDate.blt p.2 q.2) none
    ((validPairs rows).filter (fun p => PDate.ble p.2 vd))).map Prod.fst

/-- The distinct tenor months with data for the index subset
(tenor_logic.py lines 138-140). -/
def tenorMonths (subset : List PriceRowN) : List String :=
  dedupFirst (subset.filterMap PriceRowN.tenor_norm)

/-- Decorate each tenor month with its `_ym_key` value; Python's `sorted`
computes every key before comparing, so the first unparseable month raises. -/
def keyPairs : List String → Except String (List (String × Nat × Nat))
  | [] => .ok []
  | t :: ts =>
    match ymKeyE t with
    | .error e => .error e
    | .ok k =>
      match keyPairs ts with
      | .error e => .error e
      | .ok ps => .ok ((t, k) :: ps)

/-- Sort order of the fallback's tenor months: `_ym_key` tuples compared as in
Python. -/
def relPair (a b : String × Nat × Nat) : Prop := ymLe a.2 b.2 = true

instance : DecidableRel relPair :=
  fun a b => inferInstanceAs (Decidable (ymLe a.2 b.2 = true))

/-- Selection from the chosen fallback tenor's subset (tenor_logic.py
lines 169-176). -/
def chosenFrom (subset : List PriceRowN) (chosen_tenor : String) (notes : String) :
    Option PriceRowN × String :=
  match latest_within_month (subset.filter (fun r => decide (r.tenor_norm = some chosen_tenor))) with
  | none => (none, add_note notes ("No prices with dates for fallback tenor " ++ chosen_tenor))
  | some row => (some row, notes)

/-- Step 4 of `select_price_for_contract` (tenor_logic.py lines 136-176):
the fallback to the nearest later, else latest prior, tenor month. -/
def fallback_select (subset : List PriceRowN) (tenor : String) (notes : String) :
    Except String (Option PriceRowN × String) :=
  let months := tenorMonths subset
  if months = [] then .ok (none, add_note notes "No tenor months available for index")
  else
    match keyPairs months with
    | .error e => .error e
    | .ok pairs =>
      match ymKeyE tenor with
      | .error e => .error e
      | .ok tk =>
        let sortedPairs := List.insertionSort relPair pairs
        let later := sortedPairs.filter (fun p => ymLt tk p.2)
        let prior := sortedPairs.filter (fun p => ymLt p.2 tk)
        match later.head? with
        | some ch =>
          .ok (chosenFrom subset ch.1
            (add_note notes ("Used nearest later tenor " ++ ch.1 ++ " as fallback")))
        | none =>
          match prior.getLast? with
          | some ch =>
            .ok (chosenFrom subset ch.1
              (add_note notes ("Used latest prior tenor " ++ ch.1 ++ " as fallback")))
          | none => .ok (none, add_note notes "No alternative tenor available for fallback")

/-- `select_price_for_contract` (tenor_logic.py lines 75-176). -/
def select_price_for_contract (parse : String → Option (Nat × Nat))
    (prices : List PriceRow) (base_index : String) (tenor_ctx : TenorContext)
    (valuation_date : PDate) : Except String (Option PriceRowN × String) :=
  let prices_norm := prices.map (prepPriceRow parse)
  let subset := prices_norm.filter (fun r => decide (r.Index = base_index))
  if subset = [] then .ok (none, "No prices found for index " ++ base_index)
  else
    let tenor := tenor_ctx.contract_tenor_norm
    let same_tenor := subset.filter (fun r => decide (r.tenor_norm = some tenor))
    match tenor_ctx.tenor_type with
    | .past =>
      match latest_within_month same_tenor with
      | some row => .ok (some row, "")
      | none => fallback_select subset tenor (add_note "" "No price within past tenor month")
    | .current =>
      match latest_on_or_before same_tenor valuation_date with
      | some row => .ok (some row, "")
      | none =>
        fallback_select subset tenor
          (add_note "" "No price on/before valuation date for current tenor")
    | .future =>
      match latest_within_month same_tenor with
      | some row => .ok (some row, "")
      | none =>
        fallback_select subset tenor
          (add_note "" "No price for exact future tenor; applying fallback")

/-- One output row of `calculate_mtm` (mtm_calculator.py lines 113-130). -/
structure MTMRecord where
  contract_id : String
  base_index : String
  tenor : Option String
  tenor_type : Option TenorType
  price_used_date : Option PDate
  price_used : Option ℚ
  fe_ratio : ℚ
  unit : String
  moisture : Option ℚ
  dmt_qty : Option ℚ
  cost : Option ℚ
  discount : Option ℚ
  mtm_value : Option ℚ
  mtm_prev_value : Option ℚ
  mtm_change : Option ℚ
  notes : String
deriving DecidableEq

/-- Specification-side reading of the claimed MTM formula
`(selected_price * fe_ratio + cost) * discount * dmt_quantity` with
null-propagating (NaN-propagating) arithmetic. -/
def mtmFormula (p : Option ℚ) (fe : ℚ) (c d q : Option ℚ) : Option ℚ :=
  match p, c, d, q with
  | some p, some c, some d, some q => some ((p * fe + c) * d * q)
  | _, _, _, _ => none

/-- Record assembly of `calculate_mtm` (mtm_calculator.py lines 103-130):
the `np.isnan` test on price, DMT quantity and discount becomes a null test,
and when all three are present the float product
`(price_used * fe_ratio + cost) * discount * dmt_qty` — NaN exactly when the
cost is NaN — becomes the null-propagating `mtmFormula` defined below. -/
def mkRecord (row : Prepared) (ttype : Option TenorType) (pdate : Option PDate)
    (pused : Option ℚ) (notes : String) : MTMRecord :=
  if pused = none ∨ row.dmt_qty = none ∨ row.discount = none then
    ⟨row.contract_id, row.base_index, row.tenor, ttype, pdate, pused, row.fe_ratio,
     row.unit, row.moisture, row.dmt_qty, row.cost, row.discount, none, none, none,
     add_note notes "Missing price, quantity, or discount; MTM not computed"⟩
  else
    ⟨row.contract_id, row.base_index, row.tenor, ttype, pdate, pused, row.fe_ratio,
     row.unit, row.moisture, row.dmt_qty, row.cost, row.discount,
     mtmFormula pused row.fe_ratio row.cost row.discount row.dmt_qty, none, none, notes⟩

/-- The per-contract loop body of `calculate_mtm` (mtm_calculator.py
lines 77-131). -/
def mtm_row (parse : String → Option (Nat × Nat)) (prices_prepared : List PriceRow)
    (valuation_date : PDate) (row : Prepared) : Except String MTMRecord :=
  match classify_tenor parse row.tenor valuation_date with
  | .error e => .error e
  | .ok none =>
    .ok (mkRecord row none none none (add_note row.notes "Could not normalize tenor"))
  | .ok (some ctx) =>
    match select_price_for_contract parse prices_prepared row.base_index ctx valuation_date with
    | .error e => .error e
    | .ok (prow, price_notes) =>
      let notes := add_note row.notes price_notes
      match prow with
      | none => .ok (mkRecord row (some ctx.tenor_type) none none notes)
      | some pr =>
        .ok (mkRecord row (some ctx.tenor_type) pr.price_date (some pr.Price) notes)

/-- `calculate_mtm` (mtm_calculator.py lines 60-136). -/
def calculate_mtm (parse : String → Option (Nat × Nat)) (contracts_df : List Contract)
    (prices_df : List PriceRow) (valuation_date : PDate) (config : Config) :
    Except String (List MTMRecord) :=
  match prepare_contracts contracts_df config with
  | .error e => .error e
  | .ok contracts_prepared =>
    match preprocess_prices prices_df config with
    | .error e => .error e
    | .ok prices_prepared =>
      mapE (mtm_row parse prices_prepared valuation_date) contracts_prepared

/-- Dateutil oracle that always fails to parse; every concrete input used by
the witnesses below is settled before the oracle is consulted. -/
def parse0 : String → Option (Nat × Nat) := fun _ => none

/-- Specification-side helper: `pat` occurs at the start of `l`. -/
def isPrefList (pat l : List Char) : Bool :=
  match pat, l with
  | [], _ => true
  | _ :: _, [] => false
  | a :: as, b :: bs => a == b && isPrefList as bs

/-- Specification-side helper: `pat` occurs somewhere inside `l`. -/
def containsSub (l pat : List Char) : Bool :=
  match l with
  | [] => pat.isEmpty
  | _ :: t => isPrefList pat l || containsSub t pat

/-- Specification-side helper: substring test on strings (used to state that a
notes string does or does not mention a given message). -/
def strContains (s pat : String) : Bool := containsSub s.toList pat.toList

instance : DecidableEq (String × Nat × Nat) := inferInstance

instance : IsTotal (String × Nat × Nat) relPair :=
  ⟨by
    intro a b
    simp only [relPair, ymLe, Bool.or_eq_true, Bool.and_eq_true, decide_eq_true_eq]
    omega⟩

instance : IsTrans (String × Nat × Nat) relPair :=
  ⟨by
    intro a b c hab hbc
    simp only [relPair, ymLe, Bool.or_eq_true, Bool.and_eq_true, decide_eq_true_eq] at hab hbc ⊢
    omega⟩

/- ------------------------------------------------------------------ -/
/- Helper lemmas                                                       -/
/- ------------------------------------------------------------------ -/

theorem str_ne_empty_append (e t : String) (he : e ≠ "") : e ++ t ≠ "" := by
  intro h
  apply he
  have hd : e.data ++ t.data = [] := by
    simpa [String.data_append] using congrArg String.data h
  exact String.ext (List.append_eq_nil.mp hd).1

theorem add_note_empty_left (n : String) : add_note "" n = n := by
  simp [add_note]

theorem add_note_of_ne {e n : String} (he : e ≠ "") (hn : n ≠ "") :
    add_note e n = e ++ " | " ++ n := by
  simp [add_note, he, hn]

theorem add_note_extends (e n : String) : ∃ t, add_note e n = e ++ t := by
  by_cases he : e = ""
  · subst he
    exact ⟨n, by simp [add_note]⟩
  · by_cases hn : n = ""
    · subst hn
      exact ⟨"", by simp [add_note, he]⟩
    · exact ⟨" | " ++ n, by rw [add_note_of_ne he hn, String.append_assoc]⟩

theorem add_note_ne_empty {e : String} (n : String) (he : e ≠ "") : add_note e n ≠ "" := by
  by_cases hn : n = ""
  · subst hn
    simp [add_note, he]
  · rw [add_note_of_ne he hn]
    exact str_ne_empty_append _ _ (str_ne_empty_append _ _ he)

theorem str_extends_trans {a b c : String} (h1 : ∃ t, b = a ++ t) (h2 : ∃ u, c = b ++ u) :
    ∃ v, c = a ++ v := by
  obtain ⟨t, rfl⟩ := h1
  obtain ⟨u, rfl⟩ := h2
  exact ⟨t ++ u, by rw [String.append_assoc]⟩

theorem dropWhile_eq_self_of_nonWs {l : List Char} (h : ∀ c ∈ l, pyWs c = false) :
    l.dropWhile pyWs = l := by
  cases l with
  | nil => rfl
  | cons a as =>
    rw [List.dropWhile_cons, if_neg]
    simp [h a (by simp)]

theorem pstrip_eq_self {s : String} (h : ∀ c ∈ s.toList, pyWs c = false) : pstrip s = s := by
  have h1 : s.toList.dropWhile pyWs = s.toList := dropWhile_eq_self_of_nonWs h
  have h2 : s.toList.reverse.dropWhile pyWs = s.toList.reverse := by
    refine dropWhile_eq_self_of_nonWs ?_
    intro c hc
    exact h c (List.mem_reverse.mp hc)
  show (⟨((s.toList.dropWhile pyWs).reverse.dropWhile pyWs).reverse⟩ : String) = s
  rw [h1, h2, List.reverse_reverse]
  rfl

theorem mem_pstrip {c : Char} {s : String} (h : c ∈ (pstrip s).toList) : c ∈ s.toList := by
  have h' : c ∈ ((s.toList.dropWhile pyWs).reverse.dropWhile pyWs).reverse := h
  have h2 := List.mem_reverse.mp h'
  have h3 := (List.dropWhile_sublist (p := pyWs)).mem h2
  have h4 := List.mem_reverse.mp h3
  exact (List.dropWhile_sublist (p := pyWs)).mem h4

theorem pyWs_false_of_isDigit {c : Char} (h : c.isDigit = true) : pyWs c = false := by
  have h1 : c ≠ ' ' := by rintro rfl; simp [Char.isDigit] at h
  have h2 : c ≠ '\t' := by rintro rfl; simp [Char.isDigit] at h
  have h3 : c ≠ '\n' := by rintro rfl; simp [Char.isDigit] at h
  have h4 : c ≠ '\r' := by rintro rfl; simp [Char.isDigit] at h
  simp [pyWs, h1, h2, h3, h4]

theorem digitChar_isDigit {k : Nat} (hk : k ≤ 9) : (digitChar k).isDigit = true := by
  interval_cases k <;> decide

theorem digitChar_toNat {k : Nat} (hk : k ≤ 9) : (digitChar k).toNat = 48 + k := by
  interval_cases k <;> decide

theorem isCanonical_fmtYM {y m : Nat} (hy : y ≤ 9999) (hm1 : 1 ≤ m) (hm2 : m ≤ 12) :
    isCanonicalYYYYMM (fmtYM y m) = true := by
  have hy4 : y < 10000 := by omega
  have hm100 : m < 100 := by omega
  have hd1 : y / 1000 ≤ 9 := by omega
  have hd2 : y / 100 % 10 ≤ 9 := by omega
  have hd3 : y / 10 % 10 ≤ 9 := by omega
  have hd4 : y % 10 ≤ 9 := by omega
  have hm10 : m / 10 ≤ 9 := by omega
  have hmm : m % 10 ≤ 9 := by omega
  have hshape : fmtYM y m =
      ⟨[digitChar (y / 1000), digitChar (y / 100 % 10), digitChar (y / 10 % 10),
        digitChar (y % 10), '-', digitChar (m / 10), digitChar (m % 10)]⟩ := by
    unfold fmtYM pad4 pad2
    rw [if_pos hy4, if_pos hm100]
    rfl
  rw [hshape]
  show ((digitChar (y / 1000)).isDigit && (digitChar (y / 100 % 10)).isDigit &&
      (digitChar (y / 10 % 10)).isDigit && (digitChar (y % 10)).isDigit && ('-' == '-') &&
      (digitChar (m / 10)).isDigit && (digitChar (m % 10)).isDigit &&
      (decide (1 ≤ 10 * ((digitChar (m / 10)).toNat - 48) + ((digitChar (m % 10)).toNat - 48)) &&
       decide (10 * ((digitChar (m / 10)).toNat - 48) + ((digitChar (m % 10)).toNat - 48) ≤ 12)))
      = true
  simp only [digitChar_isDigit hd1, digitChar_isDigit hd2, digitChar_isDigit hd3,
    digitChar_isDigit hd4, digitChar_isDigit hm10, digitChar_isDigit hmm,
    digitChar_toNat hm10, digitChar_toNat hmm, Bool.and_eq_true, beq_self_eq_true,
    decide_eq_true_eq, Bool.true_and, Bool.and_true, and_true, true_and]
  omega

theorem isCanonical_elim {s : String} (h : isCanonicalYYYYMM s = true) :
    ∃ a b c d e f, s.toList = [a, b, c, d, '-', e, f] ∧ a.isDigit = true ∧ b.isDigit = true ∧
      c.isDigit = true ∧ d.isDigit = true ∧ e.isDigit = true ∧ f.isDigit = true := by
  unfold isCanonicalYYYYMM at h
  split at h
  case _ a b c d hc e f heq =>
    simp only [Bool.and_eq_true, beq_iff_eq] at h
    obtain ⟨⟨⟨⟨⟨⟨⟨ha, hb⟩, hcd⟩, hd⟩, hhy⟩, he⟩, hf⟩, _⟩ := h
    subst hhy
    exact ⟨a, b, c, d, e, f, heq, ha, hb, hcd, hd, he, hf⟩
  case _ => exact absurd h (by simp)

theorem pyFloatAux_nonneg {l : List Char} (h : '-' ∉ l) {q : ℚ}
    (hq : pyFloatAux l = some q) : 0 ≤ q := by
  have hhead : ¬ l.head? = some '-' := by
    cases l with
    | nil => simp
    | cons c cs =>
      intro hh
      simp only [List.head?_cons, Option.some.injEq] at hh
      exact h (by simp [hh])
  simp only [pyFloatAux] at hq
  rcases Option.map_eq_some'.mp hq with ⟨v, hv, hvq⟩
  rw [if_neg hhead] at hvq
  subst hvq
  generalize (if l.head? = some '-' ∨ l.head? = some '+' then l.tail else l) = body at hv
  split at hv
  · split at hv
    · have hn := Option.some.inj hv
      rw [← hn]
      positivity
    · exact absurd hv (by simp)
  · split at hv
    · split at hv
      · have hn := Option.some.inj hv
        rw [← hn]
        positivity
      · exact absurd hv (by simp)
    · exact absurd hv (by simp)

theorem pyFloat_nonneg {s : String} (h : '-' ∉ s.toList) {q : ℚ}
    (hq : pyFloat s = some q) : 0 ≤ q :=
  pyFloatAux_nonneg (fun hm => h (mem_pstrip hm)) hq

/- ------------------------------------------------------------------ -/
/- Claims                                                              -/
/- ------------------------------------------------------------------ -/

/-- Claim C2 (code_bug evidence): at a prices table holding one row whose
`Tenor` is NaN (the very shape `preprocess_prices` itself creates for every
row when the `Tenor` column is absent), both configured deduplication
methods return an empty table — pandas `groupby` drops NaN group keys — so
the claimed one-row-per-(index, tenor, date) output does not hold for rows
whose tenor value is absent. -/
theorem c2_missing_tenor_rows_dropped :
    preprocess_prices [⟨"A", none, some ⟨2025, 6, 15⟩, 10⟩] defaultConfig = .ok []
    ∧ preprocess_prices [⟨"A", none, some ⟨2025, 6, 15⟩, 10⟩] ⟨"last", "skip", 0, false⟩
        = .ok [] := by
  exact ⟨rfl, rfl⟩

/-- Claim C3 (code_bug evidence): under the default configuration and with a
contracts table containing every required column, the contract with tenor
text "abcd-ef" passes the normalizer's rudimentary 7-character check, and the
subsequent `map(int, tenor_norm.split("-"))` of `classify_tenor` raises,
aborting `calculate_mtm` with zero output records instead of producing one
record with a null MTM value. -/
theorem c3_unparseable_tenor_aborts_run :
    calculate_mtm parse0
      [⟨"B1", "A", some "abcd-ef", some 1, "DMT", none, none, some 0, some 1, ""⟩]
      [] ⟨2025, 7, 1⟩ defaultConfig
      = .error "invalid literal for int in tenor abcd-ef" := by
  rfl

/-- Claim C4 (counterexample): the input "9999-99" is returned unchanged by
`normalize_tenor_to_yyyymm` — the code only checks for length 7 and a hyphen
at index 4 — yet "9999-99" is not a canonical YYYY-MM string (its month
field is 99), refuting the claim that every non-null output is canonical. -/
theorem c4_counterexample :
    normalize_tenor_to_yyyymm parse0 (some "9999-99") = some "9999-99"
    ∧ isCanonicalYYYYMM "9999-99" = false := by
  exact ⟨rfl, by decide⟩

/-- Claim C4 (amended): for every input, `normalize_tenor_to_yyyymm` returns
null, or echoes the stripped input whenever that is 7 characters long with a
hyphen at index 4 (not necessarily canonical), or returns a canonical YYYY-MM
string built from the date parser; and any canonical 7-character YYYY-MM
string is returned unchanged (idempotence).  The hypothesis states what the
dateutil parser guarantees: parsed months lie in 1..12 and years in 0..9999. -/
theorem c4_normalize_shape_idempotent
    (parse : String → Option (Nat × Nat))
    (hparse : ∀ s y m, parse s = some (y, m) → 1 ≤ m ∧ m ≤ 12 ∧ y ≤ 9999) :
    (∀ value out, normalize_tenor_to_yyyymm parse value = some out →
        (∃ v, value = some v ∧ out = pstrip v ∧ out.length = 7 ∧ out.toList.getD 4 ' ' = '-')
        ∨ isCanonicalYYYYMM out = true)
    ∧ (∀ s, isCanonicalYYYYMM s = true →
        normalize_tenor_to_yyyymm parse (some s) = some s) := by
  constructor
  · intro value out h
    cases value with
    | none => simp [normalize_tenor_to_yyyymm] at h
    | some v =>
      simp only [normalize_tenor_to_yyyymm] at h
      by_cases hv : v = ""
      · rw [if_pos hv] at h
        exact absurd h (by simp)
      · rw [if_neg hv] at h
        by_cases hcond : (pstrip v).length = 7 ∧ (pstrip v).toList.getD 4 ' ' = '-'
        · rw [if_pos hcond] at h
          have hout : pstrip v = out := Option.some.inj h
          subst hout
          exact Or.inl ⟨v, rfl, rfl, hcond.1, hcond.2⟩
        · rw [if_neg hcond] at h
          cases hp : parse v with
          | none => rw [hp] at h; exact absurd h (by simp)
          | some ym =>
            rw [hp] at h
            have hout : fmtYM ym.1 ym.2 = out := Option.some.inj h
            obtain ⟨hm1, hm2, hy⟩ := hparse v ym.1 ym.2 (by rw [hp])
            exact Or.inr (hout ▸ isCanonical_fmtYM hy hm1 hm2)
  · intro s hs
    obtain ⟨a, b, c, d, e, f, hl, ha, hb, hc, hd, he, hf⟩ := isCanonical_elim hs
    have hnws : ∀ ch ∈ s.toList, pyWs ch = false := by
      intro ch hch
      rw [hl] at hch
      simp only [List.mem_cons, List.not_mem_nil, or_false] at hch
      rcases hch with rfl | rfl | rfl | rfl | rfl | rfl | rfl
      · exact pyWs_false_of_isDigit ha
      · exact pyWs_false_of_isDigit hb
      · exact pyWs_false_of_isDigit hc
      · exact pyWs_false_of_isDigit hd
      · decide
      · exact pyWs_false_of_isDigit he
      · exact pyWs_false_of_isDigit hf
    have hps : pstrip s = s := pstrip_eq_self hnws
    have hse : s ≠ "" := by
      intro h0
      rw [h0] at hl
      exact absurd hl (by simp)
    have hlen : s.length = 7 := by
      show s.toList.length = 7
      rw [hl]
      rfl
    have hget : s.toList.getD 4 ' ' = '-' := by
      rw [hl]
      rfl
    simp only [normalize_tenor_to_yyyymm, hps]
    rw [if_neg hse, if_pos ⟨hlen, hget⟩]

/-- Claim C4 witness: the amended theorem applied to the always-failing
parser at the canonical input "2025-01". -/
theorem c4_witness : normalize_tenor_to_yyyymm parse0 (some "2025-01") = some "2025-01" := by
  have h := c4_normalize_shape_idempotent parse0 (fun s y m hm => by simp [parse0] at hm)
  exact h.2 "2025-01" (by decide)

/-- Claim C7: `compute_fe_ratio` returns exactly 1 for null, blank-after-strip
and case-insensitive "NoAdj" inputs; otherwise it keeps only digits, dot and
minus, parses the remainder as a float and divides by 62, defaulting to 1
when the parse fails (the function is total, so no exception is possible);
"62" yields exactly 1 and "65" yields 65/62. -/
theorem c7_fe_ratio_spec :
    compute_fe_ratio none = 1
    ∧ (∀ s, pstrip s = "" → compute_fe_ratio (some s) = 1)
    ∧ (∀ s, pyLower (pstrip s) = "noadj" → compute_fe_ratio (some s) = 1)
    ∧ (∀ s, pstrip s ≠ "" → pyLower (pstrip s) ≠ "noadj" →
        compute_fe_ratio (some s) =
          (match pyFloat (filterNumeric (pstrip s)) with
           | some val => val / 62
           | none => 1))
    ∧ compute_fe_ratio (some "62") = 1
    ∧ compute_fe_ratio (some "65") = 65 / 62 := by
  have h62 : compute_fe_ratio (some "62") = ((62 : Nat) : ℚ) / 62 := rfl
  have h65 : compute_fe_ratio (some "65") = ((65 : Nat) : ℚ) / 62 := rfl
  refine ⟨rfl, ?_, ?_, ?_, by rw [h62]; norm_num, by rw [h65]; norm_num⟩
  · intro s hs
    simp [compute_fe_ratio, hs]
  · intro s hs
    simp [compute_fe_ratio, hs]
  · intro s h1 h2
    simp [compute_fe_ratio, h1, h2]

/-- Claim C7 witness: the theorem applied at " NoADJ " (case-insensitive
NoAdj with surrounding blanks) and at "65%" (the percent sign is stripped). -/
theorem c7_witness :
    compute_fe_ratio (some " NoADJ ") = 1 ∧ compute_fe_ratio (some "65%") = 65 / 62 := by
  have h := c7_fe_ratio_spec
  refine ⟨h.2.2.1 " NoADJ " (by decide), ?_⟩
  have h4 := h.2.2.2.1 "65%" (by decide) (by decide)
  rw [h4]
  have hval : (match pyFloat (filterNumeric (pstrip "65%")) with
      | some val => val / 62
      | none => 1) = ((65 : Nat) : ℚ) / 62 := rfl
  rw [hval]
  norm_num

/-- Claim C8 (counterexample): the typical-Fe text "-5" survives the
numeric-character filter with its minus sign, parses to -5, and yields the
negative Fe ratio -5/62, refuting the claim that the ratio is always ≥ 0. -/
theorem c8_counterexample :
    compute_fe_ratio (some "-5") = -5 / 62 ∧ ¬ 0 ≤ compute_fe_ratio (some "-5") := by
  have h : compute_fe_ratio (some "-5") = -((5 : Nat) : ℚ) / 62 := rfl
  rw [h]
  norm_num

/-- Claim C8 (amended): for every typical-Fe input containing no minus sign,
the Fe ratio computed by `compute_fe_ratio` is ≥ 0. -/
theorem c8_fe_ratio_nonneg_no_minus (v : Option String)
    (h : ∀ s, v = some s → '-' ∉ s.toList) : 0 ≤ compute_fe_ratio v := by
  cases v with
  | none => norm_num [compute_fe_ratio]
  | some s =>
    have hs := h s rfl
    simp only [compute_fe_ratio]
    split
    · norm_num
    · split
      case _ val heq =>
        have hnm : '-' ∉ (filterNumeric (pstrip s)).toList := by
          intro hm
          have hm' : '-' ∈ (pstrip s).toList ∧ _ := List.mem_filter.mp hm
          exact hs (mem_pstrip hm'.1)
        have := pyFloat_nonneg hnm heq
        positivity
      case _ => norm_num

theorem pick1_mem {α : Type} (lt : α → α → Bool) :
    ∀ (l : List α) (acc : Option α) (a : α), pick1 lt acc l = some a → a ∈ l ∨ acc = some a := by
  intro l
  induction l with
  | nil =>
    intro acc a h
    exact Or.inr h
  | cons x xs ih =>
    intro acc a h
    rw [pick1.eq_def] at h
    rcases ih _ a h with hmem | hacc
    · exact Or.inl (List.mem_cons_of_mem _ hmem)
    · cases acc with
      | none =>
        have hacc' : some x = some a := hacc
        have hx := Option.some.inj hacc'
        exact Or.inl (hx ▸ List.mem_cons_self x xs)
      | some b =>
        have hacc' : (if lt b x = true then some x else some b) = some a := hacc
        by_cases hlt : lt b x = true
        · rw [if_pos hlt] at hacc'
          have hx := Option.some.inj hacc'
          exact Or.inl (hx ▸ List.mem_cons_self x xs)
        · rw [if_neg hlt] at hacc'
          exact Or.inr hacc'

theorem latest_on_or_before_le {rows : List PriceRowN} {vd : PDate} {r : PriceRowN}
    (h : latest_on_or_before rows vd = some r) :
    ∃ d, r.price_date = some d ∧ PDate.ble d vd = true := by
  simp only [latest_on_or_before] at h
  rcases Option.map_eq_some'.mp h with ⟨p, hp, hfst⟩
  rcases pick1_mem _ _ _ _ hp with hmem | hacc
  · obtain ⟨hv, hle⟩ := List.mem_filter.mp hmem
    simp only [validPairs] at hv
    rcases List.mem_filterMap.mp hv with ⟨r0, _, hmap⟩
    rcases Option.map_eq_some'.mp hmap with ⟨d, hd, hpd⟩
    refine ⟨p.2, ?_, hle⟩
    rw [← hfst, ← hpd]
    exact hd
  · exact absurd hacc (by simp)

theorem chosenFrom_snd_ne_empty {subset : List PriceRowN} {ct notes : String}
    (hn : notes ≠ "") : (chosenFrom subset ct notes).2 ≠ "" := by
  simp only [chosenFrom]
  split
  · exact add_note_ne_empty _ hn
  · exact hn

theorem fallback_select_snd_ne_empty {subset : List PriceRowN} {tenor notes : String}
    {res : Option PriceRowN × String} (hn : notes ≠ "")
    (h : fallback_select subset tenor notes = .ok res) : res.2 ≠ "" := by
  simp only [fallback_select] at h
  split at h
  · have hr := Except.ok.inj h
    rw [← hr]
    exact add_note_ne_empty _ hn
  · split at h
    · exact absurd h (by simp)
    · split at h
      · exact absurd h (by simp)
      · split at h
        · have hr := Except.ok.inj h
          rw [← hr]
          exact chosenFrom_snd_ne_empty (add_note_ne_empty _ hn)
        · split at h
          · have hr := Except.ok.inj h
            rw [← hr]
            exact chosenFrom_snd_ne_empty (add_note_ne_empty _ hn)
          · have hr := Except.ok.inj h
            rw [← hr]
            exact add_note_ne_empty _ hn

/-- Claim C1 (counterexample): a contract whose tenor "2025-07" is classified
"current" at valuation date 2025-07-01, with prices for its index in tenor
2025-07 only after the valuation date and in tenor 2025-08: the fallback of
step 4 selects the 2025-08 row dated 2025-08-15, which is after the valuation
date, refuting the claim for the fallback path. -/
theorem c1_counterexample :
    classify_tenor parse0 (some "2025-07") ⟨2025, 7, 1⟩
        = .ok (some ⟨"2025-07", TenorType.current⟩)
    ∧ select_price_for_contract parse0
        [⟨"A", some "2025-07", some ⟨2025, 7, 15⟩, 100⟩,
         ⟨"A", some "2025-08", some ⟨2025, 8, 15⟩, 110⟩]
        "A" ⟨"2025-07", TenorType.current⟩ ⟨2025, 7, 1⟩
        = .ok (some ⟨"A", some "2025-08", some ⟨2025, 8, 15⟩, 110⟩,
            "No price on/before valuation date for current tenor | Used nearest later tenor 2025-08 as fallback")
    ∧ PDate.ble ⟨2025, 8, 15⟩ ⟨2025, 7, 1⟩ = false := by
  exact ⟨rfl, rfl, rfl⟩

/-- Claim C1 (amended): for a contract classified "current", any price row
returned by the same-tenor selection of step 3 — recognisable as a success
with empty accumulated notes, since every fallback result carries a non-empty
note — is dated on or before the valuation date.  The step-4 fallback may
return a price dated after the valuation date (see the counterexample). -/
theorem c1_current_same_tenor_on_or_before
    (parse : String → Option (Nat × Nat)) (prices : List PriceRow) (base_index : String)
    (ctx : TenorContext) (vd : PDate) (row : PriceRowN)
    (hcur : ctx.tenor_type = TenorType.current)
    (hsel : select_price_for_contract parse prices base_index ctx vd = .ok (some row, "")) :
    ∃ d, row.price_date = some d ∧ PDate.ble d vd = true := by
  simp only [select_price_for_contract] at hsel
  split at hsel
  · have := congrArg Prod.fst (Except.ok.inj hsel)
    exact absurd this (by simp)
  · split at hsel
    next heq =>
      rw [hcur] at heq
      exact absurd heq (by simp)
    next heq =>
      split at hsel
      next row' heq2 =>
        have hr := congrArg Prod.fst (Except.ok.inj hsel)
        simp only [Option.some.injEq] at hr
        rw [← hr]
        exact latest_on_or_before_le heq2
      next heq2 =>
        have hne : add_note "" "No price on/before valuation date for current tenor" ≠ "" := by
          rw [add_note_empty_left]
          decide
        have := fallback_select_snd_ne_empty hne hsel
        exact absurd rfl this
    next heq =>
      rw [hcur] at heq
      exact absurd heq (by simp)

/-- Claim C1 witness: the amended theorem applied to a one-row prices table
whose single 2025-07 price is dated 2025-06-15, before the valuation date
2025-07-01. -/
theorem c1_witness :
    select_price_for_contract parse0 [⟨"A", some "2025-07", some ⟨2025, 6, 15⟩, 100⟩]
        "A" ⟨"2025-07", TenorType.current⟩ ⟨2025, 7, 1⟩
      = .ok (some ⟨"A", some "2025-07", some ⟨2025, 6, 15⟩, 100⟩, "")
    ∧ PDate.ble ⟨2025, 6, 15⟩ ⟨2025, 7, 1⟩ = true := by
  have h := c1_current_same_tenor_on_or_before parse0
    [⟨"A", some "2025-07", some ⟨2025, 6, 15⟩, 100⟩] "A"
    ⟨"2025-07", TenorType.current⟩ ⟨2025, 7, 1⟩
    ⟨"A", some "2025-07", some ⟨2025, 6, 15⟩, 100⟩ rfl rfl
  obtain ⟨d, hd, hle⟩ := h
  have hd' : d = ⟨2025, 6, 15⟩ := by
    have : some d = some (⟨2025, 6, 15⟩ : PDate) := by rw [← hd]
    exact Option.some.inj this
  exact ⟨rfl, hd' ▸ hle⟩

/-- Claim C10: unit dispatch in `prepare_contracts` (via its per-row body
`prepare_contract_row`) is case-insensitive — the uppercased unit decides the
branch: "DMT" keeps the quantity, "WMT" applies the WMT-to-DMT conversion and
merges its note, and anything else triggers the invalid-unit policy (error
under "fail"; null DMT quantity plus an explanatory note otherwise). -/
theorem c10_unit_dispatch :
    (∀ (config : Config) (c : Contract) (p : Prepared),
        prepare_contract_row config c = .ok p →
          (pyUpper c.unit = "DMT" → p.dmt_qty = c.quantity ∧ p.notes = c.notes)
          ∧ (pyUpper c.unit = "WMT" →
              p.dmt_qty = (convert_wmt_to_dmt c.quantity c.moisture config.default_moisture).1
              ∧ p.notes = add_note c.notes
                  (convert_wmt_to_dmt c.quantity c.moisture config.default_moisture).2)
          ∧ (pyUpper c.unit ≠ "DMT" → pyUpper c.unit ≠ "WMT" →
              config.invalid_unit_policy ≠ "fail" ∧ p.dmt_qty = none
              ∧ p.notes = add_note c.notes
                  ("Unsupported unit '" ++ pyUpper c.unit ++ "' for contract " ++ c.contract_id)))
    ∧ (∀ (config : Config) (c : Contract),
        config.invalid_unit_policy = "fail" → pyUpper c.unit ≠ "DMT" → pyUpper c.unit ≠ "WMT" →
        prepare_contract_row config c =
          .error ("Unsupported unit '" ++ pyUpper c.unit ++ "' for contract " ++ c.contract_id)) := by
  constructor
  · intro config c p h
    simp only [prepare_contract_row] at h
    by_cases hD : pyUpper c.unit = "DMT"
    · rw [if_pos hD] at h
      have hp := Except.ok.inj h
      refine ⟨fun _ => ?_, fun hW => ?_, fun hnD _ => absurd hD hnD⟩
      · rw [← hp]
        exact ⟨rfl, rfl⟩
      · rw [hD] at hW
        exact absurd hW (by decide)
    · rw [if_neg hD] at h
      by_cases hW : pyUpper c.unit = "WMT"
      · rw [if_pos hW] at h
        have hp := Except.ok.inj h
        refine ⟨fun hD' => absurd hD' hD, fun _ => ?_, fun _ hW' => absurd hW hW'⟩
        rw [← hp]
        exact ⟨rfl, rfl⟩
      · rw [if_neg hW] at h
        by_cases hF : config.invalid_unit_policy = "fail"
        · rw [if_pos hF] at h
          exact absurd h (by simp)
        · rw [if_neg hF] at h
          have hp := Except.ok.inj h
          exact ⟨fun hD' => absurd hD' hD, fun hW' => absurd hW' hW,
            fun _ _ => ⟨hF, by rw [← hp], by rw [← hp]⟩⟩
  · intro config c hF hD hW
    simp only [prepare_contract_row]
    rw [if_neg hD, if_neg hW, if_pos hF]

/-- Claim C10 witness: the theorem applied at unit "dMt" (uppercases to DMT,
quantity kept) and, for the "fail" policy, at unit "xYz" (uppercases to XYZ,
whole run fails). -/
theorem c10_witness :
    ((⟨"X", "A", none, some 7, "dMt", none, none, some 0, some 1, 1, some 7, "n"⟩ :
        Prepared).dmt_qty = some 7
      ∧ (⟨"X", "A", none, some 7, "dMt", none, none, some 0, some 1, 1, some 7, "n"⟩ :
        Prepared).notes = "n")
    ∧ prepare_contract_row ⟨"mean", "fail", 0, false⟩
        ⟨"X", "A", none, some 7, "xYz", none, none, some 0, some 1, "n"⟩
      = .error "Unsupported unit 'XYZ' for contract X" := by
  have h := c10_unit_dispatch
  constructor
  · have h1 := (h.1 defaultConfig
      ⟨"X", "A", none, some 7, "dMt", none, none, some 0, some 1, "n"⟩
      ⟨"X", "A", none, some 7, "dMt", none, none, some 0, some 1, 1, some 7, "n"⟩ rfl).1
      (by decide)
    exact ⟨(congrArg Prepared.dmt_qty rfl).trans (by rw [h1.1]),
      h1.2⟩
  · have h2 := h.2 ⟨"mean", "fail", 0, false⟩
      ⟨"X", "A", none, some 7, "xYz", none, none, some 0, some 1, "n"⟩ rfl
      (by decide) (by decide)
    exact h2.trans rfl

theorem mapE_mem {α β : Type} (f : α → Except String β) :
    ∀ (l : List α) (l2 : List β), mapE f l = .ok l2 → ∀ b ∈ l2, ∃ a ∈ l, f a = .ok b := by
  intro l
  induction l with
  | nil =>
    intro l2 h b hb
    simp only [mapE] at h
    have hl := Except.ok.inj h
    rw [← hl] at hb
    exact absurd hb (by simp)
  | cons a as ih =>
    intro l2 h b hb
    simp only [mapE] at h
    split at h
    · exact absurd h (by simp)
    next b0 heq =>
      split at h
      · exact absurd h (by simp)
      next bs heq2 =>
        have hl := Except.ok.inj h
        rw [← hl] at hb
        rcases List.mem_cons.mp hb with rfl | hbs
        · exact ⟨a, List.mem_cons_self a as, heq⟩
        · obtain ⟨a1, ha1, hfa1⟩ := ih bs heq2 b hbs
          exact ⟨a1, List.mem_cons_of_mem _ ha1, hfa1⟩

theorem mapE_length {α β : Type} (f : α → Except String β) :
    ∀ (l : List α) (l2 : List β), mapE f l = .ok l2 → l2.length = l.length := by
  intro l
  induction l with
  | nil =>
    intro l2 h
    have hl := Except.ok.inj h
    rw [← hl]
    rfl
  | cons a as ih =>
    intro l2 h
    simp only [mapE] at h
    split at h
    · exact absurd h (by simp)
    next b0 heq =>
      split at h
      · exact absurd h (by simp)
      next bs heq2 =>
        have hl := Except.ok.inj h
        rw [← hl]
        simp [ih bs heq2]

theorem mapE_get {α β : Type} (f : α → Except String β) :
    ∀ (l : List α) (l2 : List β), mapE f l = .ok l2 →
      ∀ (i : Nat) (h1 : i < l.length) (h2 : i < l2.length),
        f (l.get ⟨i, h1⟩) = .ok (l2.get ⟨i, h2⟩) := by
  intro l
  induction l with
  | nil =>
    intro l2 h i h1 h2
    exact absurd h1 (by simp)
  | cons a as ih =>
    intro l2 h i h1 h2
    simp only [mapE] at h
    split at h
    · exact absurd h (by simp)
    next b0 heq =>
      split at h
      · exact absurd h (by simp)
      next bs heq2 =>
        have hl := Except.ok.inj h
        subst hl
        cases i with
        | zero => exact heq
        | succ j =>
          exact ih bs heq2 j (by simpa using h1) (by simpa using h2)

theorem mkRecord_mtm_spec (row : Prepared) (ttype : Option TenorType) (pdate : Option PDate)
    (pused : Option ℚ) (notes : String) {rec : MTMRecord}
    (hrec : mkRecord row ttype pdate pused notes = rec) :
    ((rec.price_used.isSome = true ∧ rec.dmt_qty.isSome = true ∧ rec.discount.isSome = true) →
      rec.mtm_value = mtmFormula rec.price_used rec.fe_ratio rec.cost rec.discount rec.dmt_qty)
    ∧ ((rec.price_used = none ∨ rec.dmt_qty = none ∨ rec.discount = none) →
      rec.mtm_value = none ∧
      ∃ prev, rec.notes = add_note prev "Missing price, quantity, or discount; MTM not computed") := by
  subst hrec
  by_cases hmiss : pused = none ∨ row.dmt_qty = none ∨ row.discount = none
  · rw [mkRecord, if_pos hmiss]
    constructor
    · intro h
      exfalso
      rcases hmiss with hm | hm | hm <;> simp [hm] at h
    · intro _
      exact ⟨rfl, notes, rfl⟩
  · rw [mkRecord, if_neg hmiss]
    constructor
    · intro _
      rfl
    · intro h
      exact absurd h hmiss

theorem mkRecord_notes (row : Prepared) (ttype : Option TenorType) (pdate : Option PDate)
    (pused : Option ℚ) (notes : String) :
    ∃ t, (mkRecord row ttype pdate pused notes).notes = notes ++ t := by
  rw [mkRecord]
  split
  · exact add_note_extends _ _
  · exact ⟨"", (String.append_empty _).symm⟩

theorem mtm_row_mk {parse : String → Option (Nat × Nat)} {pps : List PriceRow} {vd : PDate}
    {row : Prepared} {rec : MTMRecord} (h : mtm_row parse pps vd row = .ok rec) :
    ∃ ttype pdate pused notes, (∃ t, notes = row.notes ++ t)
      ∧ mkRecord row ttype pdate pused notes = rec := by
  simp only [mtm_row] at h
  split at h
  · exact absurd h (by simp)
  · exact ⟨none, none, none, _, add_note_extends _ _, Except.ok.inj h⟩
  next ctx heq =>
    split at h
    · exact absurd h (by simp)
    next prow price_notes heq2 =>
      cases prow with
      | none =>
        exact ⟨some ctx.tenor_type, none, none, _, add_note_extends _ _, Except.ok.inj h⟩
      | some pr =>
        exact ⟨some ctx.tenor_type, pr.price_date, some pr.Price, _,
          add_note_extends _ _, Except.ok.inj h⟩

theorem mtm_row_notes {parse : String → Option (Nat × Nat)} {pps : List PriceRow} {vd : PDate}
    {row : Prepared} {rec : MTMRecord} (h : mtm_row parse pps vd row = .ok rec) :
    ∃ t, rec.notes = row.notes ++ t := by
  obtain ⟨tt, pd, pu, nts, hext, hmk⟩ := mtm_row_mk h
  refine str_extends_trans hext ?_
  rw [← hmk]
  exact mkRecord_notes _ _ _ _ _

theorem prepare_row_notes {config : Config} {c : Contract} {p : Prepared}
    (h : prepare_contract_row config c = .ok p) : ∃ t, p.notes = c.notes ++ t := by
  simp only [prepare_contract_row] at h
  split at h
  · have hp := Except.ok.inj h
    rw [← hp]
    exact ⟨"", (String.append_empty _).symm⟩
  · split at h
    · have hp := Except.ok.inj h
      rw [← hp]
      exact add_note_extends _ _
    · split at h
      · exact absurd h (by simp)
      · have hp := Except.ok.inj h
        rw [← hp]
        exact add_note_extends _ _

theorem discount_step_notes (r : Prepared) :
    ∃ u, (if badDiscount r then
        { r with notes := add_note r.notes "Non-positive or missing discount" }
      else r).notes = r.notes ++ u := by
  split
  · exact add_note_extends _ _
  · exact ⟨"", (String.append_empty _).symm⟩

theorem prepare_contracts_rows {contracts : List Contract} {config : Config}
    {rows : List Prepared} (h : prepare_contracts contracts config = .ok rows) :
    rows.length = contracts.length
    ∧ ∀ (i : Nat) (h1 : i < contracts.length) (h2 : i < rows.length),
        ∃ t, (rows.get ⟨i, h2⟩).notes = (contracts.get ⟨i, h1⟩).notes ++ t := by
  simp only [prepare_contracts] at h
  split at h
  · exact absurd h (by simp)
  next rows0 heq =>
    have hlen0 := mapE_length _ _ _ heq
    have hget0 := mapE_get _ _ _ heq
    split at h
    · split at h
      · exact absurd h (by simp)
      · have hr := Except.ok.inj h
        subst hr
        constructor
        · simp [hlen0]
        · intro i h1 h2
          have h2' : i < rows0.length := by simpa using h2
          have e1 : (List.map (fun r => if badDiscount r then
              { r with notes := add_note r.notes "Non-positive or missing discount" }
              else r) rows0).get ⟨i, h2⟩ = (if badDiscount (rows0.get ⟨i, h2'⟩) then
              { rows0.get ⟨i, h2'⟩ with
                notes := add_note (rows0.get ⟨i, h2'⟩).notes "Non-positive or missing discount" }
              else rows0.get ⟨i, h2'⟩) := by
            simp [List.get_eq_getElem, List.getElem_map]
          rw [e1]
          exact str_extends_trans (prepare_row_notes (hget0 i h1 h2'))
            (discount_step_notes _)
    · have hr := Except.ok.inj h
      subst hr
      exact ⟨hlen0, fun i h1 h2 => prepare_row_notes (hget0 i h1 h2)⟩

/-- Claim C6: for every output record of `calculate_mtm`, whenever the
selected price, DMT quantity and discount are all non-null the MTM value
equals the (null-propagating) product
`(selected_price * fe_ratio + cost) * discount * dmt_quantity`; otherwise
the MTM value is null and the note "Missing price, quantity, or discount;
MTM not computed" is appended to that row's notes. -/
theorem c6_mtm_value_formula
    (parse : String → Option (Nat × Nat)) (contracts : List Contract)
    (prices : List PriceRow) (vd : PDate) (config : Config) (recs : List MTMRecord)
    (h : calculate_mtm parse contracts prices vd config = .ok recs) :
    ∀ rec ∈ recs,
      ((rec.price_used.isSome = true ∧ rec.dmt_qty.isSome = true ∧ rec.discount.isSome = true) →
        rec.mtm_value = mtmFormula rec.price_used rec.fe_ratio rec.cost rec.discount rec.dmt_qty)
      ∧ ((rec.price_used = none ∨ rec.dmt_qty = none ∨ rec.discount = none) →
        rec.mtm_value = none ∧
        ∃ prev, rec.notes =
          add_note prev "Missing price, quantity, or discount; MTM not computed") := by
  intro rec hrec
  simp only [calculate_mtm] at h
  split at h
  · exact absurd h (by simp)
  next rows heqp =>
    split at h
    · exact absurd h (by simp)
    next pps heqpp =>
      obtain ⟨rowa, _, hrow⟩ := mapE_mem _ _ _ h rec hrec
      obtain ⟨tt, pd, pu, nts, _, hmk⟩ := mtm_row_mk hrow
      exact mkRecord_mtm_spec _ _ _ _ _ hmk

/-- Claim C6 witness: the theorem applied to a run with one DMT contract and
an empty prices table, whose single output record has a null price and
therefore a null MTM value. -/
theorem c6_witness :
    (⟨"K1", "A", some "2025-06", some TenorType.past, none, none, 1, "DMT", none, some 100,
      some 5, some 1, none, none, none,
      "No prices found for index A | Missing price, quantity, or discount; MTM not computed"⟩ :
      MTMRecord).mtm_value = none := by
  have h := c6_mtm_value_formula parse0
    [⟨"K1", "A", some "2025-06", some 100, "DMT", none, none, some 5, some 1, ""⟩]
    [] ⟨2025, 7, 1⟩ defaultConfig
    [⟨"K1", "A", some "2025-06", some TenorType.past, none, none, 1, "DMT", none, some 100,
      some 5, some 1, none, none, none,
      "No prices found for index A | Missing price, quantity, or discount; MTM not computed"⟩]
    rfl
  exact ((h _ (by simp)).2 (Or.inl rfl)).1

/-- Claim C9: notes are only ever extended.  `add_note` appends the new
message after a " | " separator when both are non-empty and always returns a
string extending the existing notes; contract preparation turns each input
row's notes into an extension of them; and the orchestrator's output record
notes extend the prepared row's notes, row by row, with no row dropped. -/
theorem c9_notes_append_only :
    (∀ e n, e ≠ "" → n ≠ "" → add_note e n = e ++ " | " ++ n)
    ∧ (∀ e n, ∃ t, add_note e n = e ++ t)
    ∧ (∀ (contracts : List Contract) (config : Config) (rows : List Prepared),
        prepare_contracts contracts config = .ok rows →
          rows.length = contracts.length
          ∧ ∀ (i : Nat) (h1 : i < contracts.length) (h2 : i < rows.length),
              ∃ t, (rows.get ⟨i, h2⟩).notes = (contracts.get ⟨i, h1⟩).notes ++ t)
    ∧ (∀ (parse : String → Option (Nat × Nat)) (contracts : List Contract)
          (prices : List PriceRow) (vd : PDate) (config : Config)
          (rows : List Prepared) (recs : List MTMRecord),
        prepare_contracts contracts config = .ok rows →
        calculate_mtm parse contracts prices vd config = .ok recs →
          recs.length = rows.length
          ∧ ∀ (i : Nat) (h1 : i < rows.length) (h2 : i < recs.length),
              ∃ t, (recs.get ⟨i, h2⟩).notes = (rows.get ⟨i, h1⟩).notes ++ t) := by
  refine ⟨fun e n he hn => add_note_of_ne he hn, add_note_extends,
    fun contracts config rows h => prepare_contracts_rows h, ?_⟩
  intro parse contracts prices vd config rows recs hprep hcalc
  simp only [calculate_mtm] at hcalc
  split at hcalc
  · exact absurd hcalc (by simp)
  next rows0 heqp =>
    have hr0 : rows0 = rows := Except.ok.inj (heqp.symm.trans hprep)
    subst hr0
    split at hcalc
    · exact absurd hcalc (by simp)
    next pps heqpp =>
      exact ⟨mapE_length _ _ _ hcalc,
        fun i h1 h2 => mtm_row_notes (mapE_get _ _ _ hcalc i h1 h2)⟩

/-- Claim C9 witness: the theorem's append rule applied at the notes "a" and
"b", and its preparation clause applied to a concrete one-contract run. -/
theorem c9_witness :
    add_note "a" "b" = "a | b"
    ∧ ([⟨"K1", "A", some "2025-06", some 100, "DMT", none, none, some 5, some 1, 1, some 100,
        ""⟩] : List Prepared).length =
      ([⟨"K1", "A", some "2025-06", some 100, "DMT", none, none, some 5, some 1, ""⟩] :
        List Contract).length := by
  have h := c9_notes_append_only
  refine ⟨h.1 "a" "b" (by decide) (by decide), ?_⟩
  exact (h.2.2.1
    [⟨"K1", "A", some "2025-06", some 100, "DMT", none, none, some 5, some 1, ""⟩]
    defaultConfig
    [⟨"K1", "A", some "2025-06", some 100, "DMT", none, none, some 5, some 1, 1, some 100, ""⟩]
    rfl).1

theorem ymLe_iff {a b : Nat × Nat} :
    ymLe a b = true ↔ (a.1 < b.1 ∨ (a.1 = b.1 ∧ a.2 ≤ b.2)) := by
  simp [ymLe, Bool.or_eq_true, Bool.and_eq_true, decide_eq_true_eq]

theorem ymLt_iff {a b : Nat × Nat} :
    ymLt a b = true ↔ (a.1 < b.1 ∨ (a.1 = b.1 ∧ a.2 < b.2)) := by
  simp [ymLt, Bool.or_eq_true, Bool.and_eq_true, decide_eq_true_eq]

theorem ymLe_refl (a : Nat × Nat) : ymLe a a = true := by
  simp [ymLe_iff]

theorem sorted_head_min {l : List (String × Nat × Nat)} (hs : List.Sorted relPair l)
    {a : String × Nat × Nat} (h : l.head? = some a) : ∀ b ∈ l, a = b ∨ relPair a b := by
  cases l with
  | nil => exact absurd h (by simp)
  | cons x xs =>
    have hx : x = a := by simpa using h
    subst hx
    intro b hb
    rcases List.mem_cons.mp hb with rfl | hbs
    · exact Or.inl rfl
    · exact Or.inr (List.rel_of_sorted_cons hs b hbs)

theorem getLast?_isSome_of_ne_nil {α : Type} :
    ∀ (l : List α), l ≠ [] → ∃ a, l.getLast? = some a := by
  intro l
  induction l with
  | nil => intro h; exact absurd rfl h
  | cons x xs ih =>
    intro _
    cases xs with
    | nil => exact ⟨x, rfl⟩
    | cons y ys =>
      obtain ⟨a, ha⟩ := ih (by simp)
      exact ⟨a, by rw [List.getLast?_cons_cons]; exact ha⟩

theorem sorted_getLast_max : ∀ {l : List (String × Nat × Nat)}, List.Sorted relPair l →
    ∀ {a : String × Nat × Nat}, l.getLast? = some a → ∀ b ∈ l, b = a ∨ relPair b a := by
  intro l
  induction l with
  | nil => intro _ a h; exact absurd h (by simp)
  | cons x xs ih =>
    intro hs a h b hb
    cases xs with
    | nil =>
      have hxa : x = a := by simpa using h
      rcases List.mem_cons.mp hb with rfl | hbs
      · exact Or.inl hxa
      · exact absurd hbs (by simp)
    | cons y ys =>
      rw [List.getLast?_cons_cons] at h
      have hs' : List.Sorted relPair (y :: ys) := hs.of_cons
      rcases List.mem_cons.mp hb with rfl | hbs
      · have hamem : a ∈ y :: ys := List.mem_of_getLast?_eq_some h
        exact Or.inr (List.rel_of_sorted_cons hs a hamem)
      · exact ih hs' h b hbs

theorem keyPairs_fwd : ∀ (ts : List String) (ps : List (String × Nat × Nat)),
    keyPairs ts = .ok ps → ∀ p ∈ ps, p.1 ∈ ts ∧ ymKeyE p.1 = .ok p.2 := by
  intro ts
  induction ts with
  | nil =>
    intro ps h p hp
    have hl := Except.ok.inj h
    rw [← hl] at hp
    exact absurd hp (by simp)
  | cons t ts ih =>
    intro ps h p hp
    simp only [keyPairs] at h
    split at h
    · exact absurd h (by simp)
    next k heq =>
      split at h
      · exact absurd h (by simp)
      next ps0 heq2 =>
        have hl := Except.ok.inj h
        rw [← hl] at hp
        rcases List.mem_cons.mp hp with rfl | hps
        · exact ⟨List.mem_cons_self _ _, heq⟩
        · obtain ⟨h1, h2⟩ := ih ps0 heq2 p hps
          exact ⟨List.mem_cons_of_mem _ h1, h2⟩

theorem keyPairs_bwd : ∀ (ts : List String) (ps : List (String × Nat × Nat)),
    keyPairs ts = .ok ps → ∀ t k, t ∈ ts → ymKeyE t = .ok k → (t, k) ∈ ps := by
  intro ts
  induction ts with
  | nil =>
    intro ps h t k ht _
    exact absurd ht (by simp)
  | cons t0 ts ih =>
    intro ps h t k ht hk
    simp only [keyPairs] at h
    split at h
    · exact absurd h (by simp)
    next k0 heq =>
      split at h
      · exact absurd h (by simp)
      next ps0 heq2 =>
        have hl := Except.ok.inj h
        rw [← hl]
        rcases List.mem_cons.mp ht with rfl | hts
        · have hkk : k0 = k := Except.ok.inj (heq.symm.trans hk)
          subst hkk
          exact List.mem_cons_self _ _
        · exact List.mem_cons_of_mem _ (ih ps0 heq2 t k hts hk)

theorem dedupFirstAux_mem {α : Type} [DecidableEq α] :
    ∀ (l seen : List α) (x : α), x ∈ dedupFirstAux seen l ↔ (x ∈ l ∧ x ∉ seen) := by
  intro l
  induction l with
  | nil =>
    intro seen x
    simp [dedupFirstAux]
  | cons a as ih =>
    intro seen x
    simp only [dedupFirstAux]
    split
    next hin =>
      rw [ih]
      constructor
      · rintro ⟨h1, h2⟩
        exact ⟨List.mem_cons_of_mem _ h1, h2⟩
      · rintro ⟨h1, h2⟩
        rcases List.mem_cons.mp h1 with rfl | h1'
        · exact absurd hin h2
        · exact ⟨h1', h2⟩
    next hnin =>
      simp only [List.mem_cons]
      constructor
      · rintro (rfl | hmem)
        · exact ⟨Or.inl rfl, hnin⟩
        · rw [ih] at hmem
          obtain ⟨h1, h2⟩ := hmem
          exact ⟨Or.inr h1, fun hs => h2 (List.mem_cons_of_mem _ hs)⟩
      · rintro ⟨rfl | h1, h2⟩
        · exact Or.inl rfl
        · by_cases hxa : x = a
          · exact Or.inl hxa
          · refine Or.inr ?_
            rw [ih]
            refine ⟨h1, fun hs => ?_⟩
            rcases List.mem_cons.mp hs with h3 | h3
            · exact hxa h3
            · exact h2 h3

theorem dedupFirst_mem {α : Type} [DecidableEq α] {l : List α} {x : α} :
    x ∈ dedupFirst l ↔ x ∈ l := by
  rw [dedupFirst, dedupFirstAux_mem]
  simp

theorem tenorMonths_mem {subset : List PriceRowN} {t : String} :
    t ∈ tenorMonths subset ↔ ∃ r ∈ subset, r.tenor_norm = some t := by
  rw [tenorMonths, dedupFirst_mem]
  simp [List.mem_filterMap]

/-- Claim C5 (counterexample): a fallback reached with data for the contract's
index but no resolvable tenor month at all — one row with NaN tenor and a
valid date, classification "past" — fails with the note "No tenor months
available for index", not the claimed "No alternative tenor available for
fallback", even though no strictly later and no strictly earlier tenor
exists. -/
theorem c5_counterexample :
    select_price_for_contract parse0 [⟨"A", none, some ⟨2025, 6, 15⟩, 100⟩] "A"
        ⟨"2025-07", TenorType.past⟩ ⟨2025, 7, 1⟩
      = .ok (none, "No price within past tenor month | No tenor months available for index")
    ∧ strContains "No price within past tenor month | No tenor months available for index"
        "No alternative tenor available for fallback" = false := by
  exact ⟨rfl, by decide⟩

/-- Claim C5 (amended): whenever `select_price_for_contract` reaches the
fallback step (embodied by `fallback_select`, which the three classification
branches invoke exactly on fall-through), and the contract tenor and every
distinct tenor month with data for the index parse as year-month keys
(hypotheses `htk`, `hkp`): if some tenor month is strictly later than the
contract's tenor, a nearest such later month is chosen and selection proceeds
from its subset with the note "Used nearest later tenor X as fallback"; else
if some month is strictly earlier, a latest such earlier month is chosen with
the note "Used latest prior tenor X as fallback"; else selection fails with
no price row — with the note "No alternative tenor available for fallback"
when at least one tenor month exists, and with "No tenor months available
for index" when the index has no resolvable tenor months at all. -/
theorem c5_fallback_choice
    (subset : List PriceRowN) (tenor : String) (notes : String)
    (tk : Nat × Nat) (pairs : List (String × Nat × Nat))
    (htk : ymKeyE tenor = .ok tk)
    (hkp : keyPairs (tenorMonths subset) = .ok pairs) :
    ((∃ p ∈ pairs, ymLt tk p.2 = true) →
      ∃ ch, ch ∈ pairs ∧ ch.1 ∈ tenorMonths subset ∧ ymKeyE ch.1 = .ok ch.2
        ∧ ymLt tk ch.2 = true
        ∧ (∀ p ∈ pairs, ymLt tk p.2 = true → ymLe ch.2 p.2 = true)
        ∧ fallback_select subset tenor notes =
            .ok (chosenFrom subset ch.1
              (add_note notes ("Used nearest later tenor " ++ ch.1 ++ " as fallback"))))
    ∧ ((¬ ∃ p ∈ pairs, ymLt tk p.2 = true) → (∃ p ∈ pairs, ymLt p.2 tk = true) →
      ∃ ch, ch ∈ pairs ∧ ch.1 ∈ tenorMonths subset ∧ ymKeyE ch.1 = .ok ch.2
        ∧ ymLt ch.2 tk = true
        ∧ (∀ p ∈ pairs, ymLt p.2 tk = true → ymLe p.2 ch.2 = true)
        ∧ fallback_select subset tenor notes =
            .ok (chosenFrom subset ch.1
              (add_note notes ("Used latest prior tenor " ++ ch.1 ++ " as fallback"))))
    ∧ ((¬ ∃ p ∈ pairs, ymLt tk p.2 = true) → (¬ ∃ p ∈ pairs, ymLt p.2 tk = true) →
        tenorMonths subset ≠ [] →
        fallback_select subset tenor notes =
          .ok (none, add_note notes "No alternative tenor available for fallback"))
    ∧ (tenorMonths subset = [] →
        fallback_select subset tenor notes =
          .ok (none, add_note notes "No tenor months available for index")) := by
  have hsorted : List.Sorted relPair (List.insertionSort relPair pairs) :=
    List.sorted_insertionSort relPair pairs
  have hperm : ∀ p, p ∈ List.insertionSort relPair pairs ↔ p ∈ pairs :=
    fun p => (List.perm_insertionSort relPair pairs).mem_iff
  refine ⟨?_, ?_, ?_, ?_⟩
  · rintro ⟨p0, hp0mem, hp0lt⟩
    have hmonths_ne : tenorMonths subset ≠ [] := by
      intro hm
      rw [hm] at hkp
      have hpe : ([] : List (String × Nat × Nat)) = pairs := Except.ok.inj hkp
      rw [← hpe] at hp0mem
      exact absurd hp0mem (by simp)
    have hp0mem2 : p0 ∈ (List.insertionSort relPair pairs).filter (fun p => ymLt tk p.2) :=
      List.mem_filter.mpr ⟨(hperm p0).mpr hp0mem, hp0lt⟩
    cases hl : (List.insertionSort relPair pairs).filter (fun p => ymLt tk p.2) with
    | nil =>
      rw [hl] at hp0mem2
      exact absurd hp0mem2 (by simp)
    | cons ch rest =>
      have hchmem2 : ch ∈ (List.insertionSort relPair pairs).filter (fun p => ymLt tk p.2) := by
        rw [hl]
        exact List.mem_cons_self _ _
      obtain ⟨hchsort, hchlt⟩ := List.mem_filter.mp hchmem2
      have hchpairs : ch ∈ pairs := (hperm ch).mp hchsort
      obtain ⟨hchmon, hchkey⟩ := keyPairs_fwd _ _ hkp ch hchpairs
      refine ⟨ch, hchpairs, hchmon, hchkey, hchlt, ?_, ?_⟩
      · intro p hp hplt
        have hpf : p ∈ (List.insertionSort relPair pairs).filter (fun q => ymLt tk q.2) :=
          List.mem_filter.mpr ⟨(hperm p).mpr hp, hplt⟩
        have hsl : List.Sorted relPair
            ((List.insertionSort relPair pairs).filter (fun q => ymLt tk q.2)) :=
          hsorted.filter _
        have hhead : ((List.insertionSort relPair pairs).filter
            (fun q => ymLt tk q.2)).head? = some ch := by
          rw [hl]
          rfl
        rcases sorted_head_min hsl hhead p hpf with rfl | hrel
        · exact ymLe_refl _
        · exact hrel
      · simp only [fallback_select, hkp, htk, hmonths_ne, hl]
        rfl
  · intro hnl
    rintro ⟨p0, hp0mem, hp0lt⟩
    have hmonths_ne : tenorMonths subset ≠ [] := by
      intro hm
      rw [hm] at hkp
      have hpe : ([] : List (String × Nat × Nat)) = pairs := Except.ok.inj hkp
      rw [← hpe] at hp0mem
      exact absurd hp0mem (by simp)
    have hlater_nil : (List.insertionSort relPair pairs).filter (fun p => ymLt tk p.2) = [] := by
      rw [List.filter_eq_nil_iff]
      intro a ha hpa
      exact hnl ⟨a, (hperm a).mp ha, hpa⟩
    have hp0mem2 : p0 ∈ (List.insertionSort relPair pairs).filter (fun p => ymLt p.2 tk) :=
      List.mem_filter.mpr ⟨(hperm p0).mpr hp0mem, hp0lt⟩
    have hprior_ne : (List.insertionSort relPair pairs).filter (fun p => ymLt p.2 tk) ≠ [] := by
      intro hm
      rw [hm] at hp0mem2
      exact absurd hp0mem2 (by simp)
    obtain ⟨ch, hch⟩ := getLast?_isSome_of_ne_nil _ hprior_ne
    have hchmem2 : ch ∈ (List.insertionSort relPair pairs).filter (fun p => ymLt p.2 tk) :=
      List.mem_of_getLast?_eq_some hch
    obtain ⟨hchsort, hchlt⟩ := List.mem_filter.mp hchmem2
    have hchpairs : ch ∈ pairs := (hperm ch).mp hchsort
    obtain ⟨hchmon, hchkey⟩ := keyPairs_fwd _ _ hkp ch hchpairs
    refine ⟨ch, hchpairs, hchmon, hchkey, hchlt, ?_, ?_⟩
    · intro p hp hplt
      have hpf : p ∈ (List.insertionSort relPair pairs).filter (fun q => ymLt q.2 tk) :=
        List.mem_filter.mpr ⟨(hperm p).mpr hp, hplt⟩
      have hsl : List.Sorted relPair
          ((List.insertionSort relPair pairs).filter (fun q => ymLt q.2 tk)) :=
        hsorted.filter _
      rcases sorted_getLast_max hsl hch p hpf with rfl | hrel
      · exact ymLe_refl _
      · exact hrel
    · simp only [fallback_select, hkp, htk, hmonths_ne, hlater_nil, hch]
      rfl
  · intro hnl hnp hmonths_ne
    have hlater_nil : (List.insertionSort relPair pairs).filter (fun p => ymLt tk p.2) = [] := by
      rw [List.filter_eq_nil_iff]
      intro a ha hpa
      exact hnl ⟨a, (hperm a).mp ha, hpa⟩
    have hprior_nil : (List.insertionSort relPair pairs).filter (fun p => ymLt p.2 tk) = [] := by
      rw [List.filter_eq_nil_iff]
      intro a ha hpa
      exact hnp ⟨a, (hperm a).mp ha, hpa⟩
    simp only [fallback_select, hkp, htk, hmonths_ne, hlater_nil, hprior_nil]
    rfl
  · intro hm
    simp only [fallback_select, hm]
    rfl

/-- Claim C5 witness: the amended theorem applied to a one-row subset whose
only tenor month 2025-08 lies strictly later than the contract tenor 2025-07:
the fallback selects it with the "Used nearest later tenor" note. -/
theorem c5_witness :
    fallback_select [⟨"A", some "2025-08", some ⟨2025, 8, 10⟩, 50⟩] "2025-07" "n"
      = .ok (chosenFrom [⟨"A", some "2025-08", some ⟨2025, 8, 10⟩, 50⟩] "2025-08"
          (add_note "n" ("Used nearest later tenor " ++ "2025-08" ++ " as fallback"))) := by
  have h := (c5_fallback_choice [⟨"A", some "2025-08", some ⟨2025, 8, 10⟩, 50⟩] "2025-07" "n"
      (2025, 7) [("2025-08", (2025, 8))] rfl rfl).1
    ⟨("2025-08", (2025, 8)), by simp, by decide⟩
  obtain ⟨ch, hchp, _, _, _, _, heq⟩ := h
  have hch : ch = ("2025-08", (2025, 8)) := by simpa using hchp
  rw [hch] at heq
  exact heq

/-- Claim C8 witness: the amended theorem applied at the input "65". -/
theorem c8_witness : 0 ≤ compute_fe_ratio (some "65") := by
  refine c8_fe_ratio_nonneg_no_minus (some "65") ?_
  intro s hs
  injection hs with h
  subst h
  decide

end MTM
